import Mathlib

/-!
Verification development for the snapshot-polling and diffing engine of the
Energy_Data_Visualisation scripts (`task1.py`, `task2.py`).

The Python data-frame pipeline is shallowly embedded over lists of records:
a pandas data frame becomes a `List` of structures, null/NaN cells become
`Option`, raising code returns `Except`, and the numeric `indicatedImbalance`
column is modelled with exact integers (only comparisons, subtraction and
the sign of zero matter for the properties below, and those are exact for
the floats involved).
-/

set_option autoImplicit false

namespace EDV

/-! ## Normalization and dedup (`drop_na_get_final`, task1.py lines 102-111) -/

/-- One raw evolution record as used by `drop_na_get_final`: the grouping key
`(settlementDate, settlementPeriod)` (dates and period numbers coded as `Nat`),
the `indicatedImbalance` value where `none` models a null/NaN cell, and the
`publishTime_cest` timestamp. -/
structure Rec where
  date : Nat
  period : Nat
  value : Option Int
  publish : Int
deriving DecidableEq

/-- The grouping key `(settlementDate, settlementPeriod)`. -/
def key (r : Rec) : Nat × Nat := (r.date, r.period)

/-- `df.dropna(subset=["indicatedImbalance"])` (task1.py line 103). -/
def dropna (l : List Rec) : List Rec := l.filter fun r => r.value.isSome

/-- One step of an ascending insertion sort by `publishTime_cest`: the
inserted record is placed before the first record whose publish time is not
smaller, so records with equal publish times keep their input order. -/
def insertPub (r : Rec) : List Rec → List Rec
  | [] => [r]
  | x :: xs => if x.publish < r.publish then x :: insertPub r xs else r :: x :: xs

/-- Ascending insertion sort by `publishTime_cest`. This is the stable sort
numpy applies to frames below its insertion-sort cutoff (16 elements) — the
regime of the concrete inputs this file evaluates. On larger frames
`df_valid.sort_values("publishTime_cest")` (task1.py line 104) uses the
default quicksort, which guarantees the ascending publish order but
specifies no order among tied rows; therefore every universal theorem below
quantifies over an arbitrary publish-ordered permutation of the rows
(hypotheses `List.Perm` + `List.Pairwise`) instead of using this function. -/
def sortPub : List Rec → List Rec
  | [] => []
  | r :: rs => insertPub r (sortPub rs)

/-- `df.groupby(["settlementDate", "settlementPeriod"]).tail(1)`
(task1.py lines 105-110): a row is kept iff no later row carries the same
key; the row order of the input frame is preserved. -/
def gtail1 : List Rec → List Rec
  | [] => []
  | r :: rs =>
    if rs.any (fun s => decide (key s = key r)) then gtail1 rs else r :: gtail1 rs

/-- `drop_na_get_final` (task1.py lines 102-111): drop records with a null
value, sort by publish time, keep the last row of each
`(settlementDate, settlementPeriod)` group — here with the small-frame
(stable) tie order, under which it is exact for the concrete inputs below;
universal statements instead take the sorted frame as an arbitrary
publish-ordered permutation, since the sort's tie order is unspecified. -/
def drop_na_get_final (l : List Rec) : List Rec := gtail1 (sortPub (dropna l))

/-- The last record of `l` whose key is `k`, if any. -/
def lastKey (k : Nat × Nat) : List Rec → Option Rec
  | [] => none
  | r :: rs =>
    match lastKey k rs with
    | some a => some a
    | none => if key r = k then some r else none

theorem mem_insertPub (r y : Rec) :
    ∀ m : List Rec, y ∈ insertPub r m ↔ y = r ∨ y ∈ m := by
  intro m
  induction m with
  | nil => simp [insertPub]
  | cons x xs ih =>
    simp only [insertPub]
    split
    · rw [List.mem_cons, ih, List.mem_cons]
      tauto
    · rw [List.mem_cons, List.mem_cons]

theorem pairwise_insertPub (r : Rec) :
    ∀ m : List Rec, m.Pairwise (fun a b => a.publish ≤ b.publish) →
      (insertPub r m).Pairwise (fun a b => a.publish ≤ b.publish) := by
  intro m
  induction m with
  | nil =>
    intro _
    simp [insertPub]
  | cons x xs ih =>
    intro hp
    rw [List.pairwise_cons] at hp
    obtain ⟨hx, hxs⟩ := hp
    simp only [insertPub]
    split
    · rename_i hlt
      rw [List.pairwise_cons]
      refine ⟨fun y hy => ?_, ih hxs⟩
      rcases (mem_insertPub r y xs).mp hy with rfl | hy
      · exact le_of_lt hlt
      · exact hx y hy
    · rename_i hge
      rw [List.pairwise_cons]
      refine ⟨fun y hy => ?_, List.pairwise_cons.mpr ⟨hx, hxs⟩⟩
      rcases List.mem_cons.mp hy with rfl | hy
      · exact le_of_not_lt hge
      · exact le_trans (le_of_not_lt hge) (hx y hy)

theorem pairwise_sortPub :
    ∀ l : List Rec, (sortPub l).Pairwise (fun a b => a.publish ≤ b.publish) := by
  intro l
  induction l with
  | nil => simp [sortPub]
  | cons r rs ih => exact pairwise_insertPub r (sortPub rs) ih

theorem lastKey_mem (k : Nat × Nat) :
    ∀ {m : List Rec} {a : Rec}, lastKey k m = some a → a ∈ m := by
  intro m
  induction m with
  | nil => intro a h; cases h
  | cons x xs ih =>
    intro a h
    simp only [lastKey] at h
    cases hx : lastKey k xs with
    | some b =>
      rw [hx] at h
      cases h
      exact List.mem_cons_of_mem x (ih hx)
    | none =>
      rw [hx] at h
      by_cases hk : key x = k
      · rw [if_pos hk] at h
        cases h
        exact List.mem_cons_self x xs
      · rw [if_neg hk] at h
        cases h

theorem lastKey_cons (k : Nat × Nat) (x : Rec) (xs : List Rec) :
    lastKey k (x :: xs) =
      match lastKey k xs with
      | some a => some a
      | none => if key x = k then some x else none := rfl

theorem lastKey_eq_none (k : Nat × Nat) :
    ∀ m : List Rec, lastKey k m = none ↔ ∀ s ∈ m, key s ≠ k := by
  intro m
  induction m with
  | nil => simp [lastKey]
  | cons x xs ih =>
    rw [lastKey_cons]
    cases hx : lastKey k xs with
    | some b =>
      show some b = none ↔ _
      constructor
      · intro h; cases h
      · intro hall
        have hnone : lastKey k xs = none :=
          ih.mpr fun s hs => hall s (List.mem_cons_of_mem x hs)
        rw [hx] at hnone
        cases hnone
    | none =>
      have hxs : ∀ s ∈ xs, key s ≠ k := ih.mp hx
      show (if key x = k then some x else none) = none ↔ _
      by_cases hk : key x = k
      · rw [if_pos hk]
        constructor
        · intro h; cases h
        · intro hall
          exact absurd hk (hall x (List.mem_cons_self x xs))
      · rw [if_neg hk]
        constructor
        · intro _ s hs
          rcases List.mem_cons.mp hs with rfl | hs2
          · exact hk
          · exact hxs s hs2
        · intro _
          rfl

/-- What `groupby(...).tail(1)` keeps of any one key group: exactly the last
row of the frame carrying that key. -/
theorem gtail1_filter (k : Nat × Nat) :
    ∀ l : List Rec,
      (gtail1 l).filter (fun r => decide (key r = k)) = (lastKey k l).toList := by
  intro l
  induction l with
  | nil => simp [gtail1, lastKey]
  | cons r rs ih =>
    simp only [gtail1, lastKey]
    split
    · rename_i hany
      rw [List.any_eq_true] at hany
      obtain ⟨s, hs, hks⟩ := hany
      rw [decide_eq_true_eq] at hks
      cases hx : lastKey k rs with
      | some b => rw [ih, hx]
      | none =>
        by_cases hk : key r = k
        · exfalso
          have := (lastKey_eq_none k rs).mp hx s hs
          rw [hks, hk] at this
          exact this rfl
        · rw [ih, hx, if_neg hk]
    · rename_i hany
      have hnone : ∀ s ∈ rs, key s ≠ key r := by
        intro s hs heq
        exact hany (List.any_eq_true.mpr ⟨s, hs, decide_eq_true_eq.mpr heq⟩)
      by_cases hk : key r = k
      · have hx : lastKey k rs = none := by
          rw [lastKey_eq_none]
          intro s hs
          rw [← hk] at *
          exact hnone s hs
        rw [List.filter_cons_of_pos (by simpa using hk), ih, hx, if_pos hk]
        rfl
      · cases hx : lastKey k rs with
        | some b =>
          rw [List.filter_cons_of_neg (by simpa using hk), ih, hx]
        | none =>
          rw [List.filter_cons_of_neg (by simpa using hk), ih, hx, if_neg hk]

/-- In a publish-ordered frame, the last row of a key group carries the
group's maximal publish time (whatever the order among tied rows was). -/
theorem lastKey_sorted_max (k : Nat × Nat) :
    ∀ m : List Rec, m.Pairwise (fun a b => a.publish ≤ b.publish) →
      ∀ a : Rec, lastKey k m = some a →
        ∀ s ∈ m, key s = k → s.publish ≤ a.publish := by
  intro m
  induction m with
  | nil =>
    intro _ a h
    cases h
  | cons x xs ih =>
    intro hp a h s hs hsk
    rw [List.pairwise_cons] at hp
    obtain ⟨hx, hxs⟩ := hp
    rw [lastKey_cons] at h
    cases hlk : lastKey k xs with
    | some b =>
      rw [hlk] at h
      cases h
      rcases List.mem_cons.mp hs with rfl | hs2
      · exact hx a (lastKey_mem k hlk)
      · exact ih hxs a hlk s hs2 hsk
    | none =>
      rw [hlk] at h
      by_cases hk : key x = k
      · rw [if_pos hk] at h
        cases h
        rcases List.mem_cons.mp hs with rfl | hs2
        · exact le_refl _
        · exact absurd hsk ((lastKey_eq_none k xs).mp hlk s hs2)
      · rw [if_neg hk] at h
        cases h

/-- In a frame whose keys are pairwise distinct, every key group has at
most one row. -/
theorem filter_key_length_le_one (k : Nat × Nat) :
    ∀ m : List Rec, m.Pairwise (fun a b => key a ≠ key b) →
      (m.filter fun r => decide (key r = k)).length ≤ 1 := by
  intro m
  induction m with
  | nil =>
    intro _
    simp
  | cons x xs ih =>
    intro hp
    rw [List.pairwise_cons] at hp
    obtain ⟨hx, hxs⟩ := hp
    by_cases hk : key x = k
    · rw [List.filter_cons_of_pos (by simpa using hk)]
      have hnil : (xs.filter fun r => decide (key r = k)) = [] := by
        rw [List.filter_eq_nil_iff]
        intro s hs hdec
        exact hx s hs (hk.trans (decide_eq_true_eq.mp hdec).symm)
      rw [hnil]
      simp
    · rw [List.filter_cons_of_neg (by simpa using hk)]
      exact ih hxs

/-- Permuted lists with at most one element are equal. -/
theorem perm_eq_of_length_le_one {α : Type} {la lb : List α}
    (h : la.Perm lb) (hlen : la.length ≤ 1) : la = lb := by
  cases la with
  | nil => rw [h.symm.eq_nil]
  | cons a t =>
    cases t with
    | nil =>
      rw [(List.singleton_perm.mp h).symm]
    | cons b t2 => simp at hlen

theorem mem_sortPub (y : Rec) : ∀ l : List Rec, y ∈ sortPub l ↔ y ∈ l := by
  intro l
  induction l with
  | nil => simp [sortPub]
  | cons r rs ih => simp only [sortPub, mem_insertPub, ih, List.mem_cons]

theorem gtail1_sublist : ∀ l : List Rec, (gtail1 l).Sublist l := by
  intro l
  induction l with
  | nil => simp [gtail1]
  | cons r rs ih =>
    simp only [gtail1]
    split
    · exact ih.cons r
    · exact ih.cons₂ r

theorem insertPub_eq_cons (r : Rec) :
    ∀ m : List Rec, (∀ x ∈ m, r.publish ≤ x.publish) → insertPub r m = r :: m := by
  intro m h
  cases m with
  | nil => rfl
  | cons x xs =>
    have hx : ¬ x.publish < r.publish := not_lt_of_le (h x (List.mem_cons_self x xs))
    simp [insertPub, hx]

theorem sortPub_eq_of_sorted :
    ∀ l : List Rec, l.Pairwise (fun a b => a.publish ≤ b.publish) → sortPub l = l := by
  intro l
  induction l with
  | nil => intro _; rfl
  | cons r rs ih =>
    intro hp
    rw [List.pairwise_cons] at hp
    obtain ⟨hr, hrs⟩ := hp
    rw [sortPub, ih hrs]
    exact insertPub_eq_cons r rs hr

theorem gtail1_pairwise_keys : ∀ l : List Rec,
    (gtail1 l).Pairwise (fun a b => key a ≠ key b) := by
  intro l
  induction l with
  | nil => simp [gtail1]
  | cons r rs ih =>
    simp only [gtail1]
    split
    · exact ih
    · rename_i hany
      rw [List.pairwise_cons]
      refine ⟨fun y hy heq => ?_, ih⟩
      have hyrs : y ∈ rs := (gtail1_sublist rs).subset hy
      exact hany (List.any_eq_true.mpr ⟨y, hyrs, decide_eq_true_eq.mpr heq.symm⟩)

theorem gtail1_eq_of_unique :
    ∀ l : List Rec, l.Pairwise (fun a b => key a ≠ key b) → gtail1 l = l := by
  intro l
  induction l with
  | nil => intro _; rfl
  | cons r rs ih =>
    intro hp
    rw [List.pairwise_cons] at hp
    obtain ⟨hr, hrs⟩ := hp
    have hany : rs.any (fun s => decide (key s = key r)) = false := by
      rw [List.any_eq_false]
      intro s hs heq
      exact hr s hs (decide_eq_true_eq.mp heq).symm
    simp [gtail1, hany, ih hrs]

theorem final_value_isSome (l : List Rec) :
    ∀ r ∈ drop_na_get_final l, r.value.isSome := by
  intro r hr
  have h1 : r ∈ sortPub (dropna l) := (gtail1_sublist _).subset hr
  have h2 : r ∈ dropna l := (mem_sortPub r _).mp h1
  exact (List.mem_filter.mp h2).2

theorem final_pairwise_pub (l : List Rec) :
    (drop_na_get_final l).Pairwise (fun a b => a.publish ≤ b.publish) :=
  (pairwise_sortPub (dropna l)).sublist (gtail1_sublist _)

theorem final_pairwise_keys (l : List Rec) :
    (drop_na_get_final l).Pairwise (fun a b => key a ≠ key b) :=
  gtail1_pairwise_keys (sortPub (dropna l))

/-- Running the normalizer on its own output changes nothing — under the
stable small-frame tie order; for larger frames the unspecified quicksort
tie order weakens this to equality up to the order of rows tied on publish
time (see C8). -/
theorem final_idempotent (l : List Rec) :
    drop_na_get_final (drop_na_get_final l) = drop_na_get_final l := by
  have hval : dropna (drop_na_get_final l) = drop_na_get_final l := by
    rw [dropna, List.filter_eq_self]
    exact fun r hr => final_value_isSome l r hr
  have hsort : sortPub (drop_na_get_final l) = drop_na_get_final l :=
    sortPub_eq_of_sorted _ (final_pairwise_pub l)
  have huniq : gtail1 (drop_na_get_final l) = drop_na_get_final l :=
    gtail1_eq_of_unique _ (final_pairwise_keys l)
  rw [drop_na_get_final, hval, hsort, huniq]

theorem lastKey_key (k : Nat × Nat) :
    ∀ {m : List Rec} {a : Rec}, lastKey k m = some a → key a = k := by
  intro m
  induction m with
  | nil => intro a h; cases h
  | cons x xs ih =>
    intro a h
    rw [lastKey_cons] at h
    cases hx : lastKey k xs with
    | some b =>
      rw [hx] at h
      cases h
      exact ih hx
    | none =>
      rw [hx] at h
      by_cases hk : key x = k
      · rw [if_pos hk] at h
        cases h
        exact hk
      · rw [if_neg hk] at h
        cases h

/-- C1 (amended): after dropping records whose value field is null, the
normalizer keeps, within each `(calendarDate, periodKey)` group, exactly
one record, and it carries the group's maximum `publishedAt`. Which record
among several sharing that maximum survives is not guaranteed by the code:
`sort_values`' default quicksort specifies no order among tied rows, so the
statement quantifies over every publish-ordered permutation `m` of the
non-null rows that the sort may produce, and asserts empty-group emptiness,
uniqueness, group membership and publish-time maximality of the kept
record — but no particular tie-break (the claimed first-seen tie-break is
refuted by the counterexample). -/
theorem C1_thm (l m : List Rec) (k : Nat × Nat) (r : Rec)
    (hperm : m.Perm (dropna l))
    (hsort : m.Pairwise fun a b => a.publish ≤ b.publish) :
    ((∀ s ∈ dropna l, key s ≠ k) →
        (gtail1 m).filter (fun x => decide (key x = k)) = []) ∧
      (r ∈ dropna l → key r = k →
        ∃ a, (gtail1 m).filter (fun x => decide (key x = k)) = [a] ∧
          a ∈ dropna l ∧ key a = k ∧ a.value.isSome = true ∧
          ∀ s ∈ dropna l, key s = k → s.publish ≤ a.publish) := by
  constructor
  · intro hnone
    rw [gtail1_filter]
    have hlk : lastKey k m = none :=
      (lastKey_eq_none k m).mpr fun s hs => hnone s (hperm.subset hs)
    rw [hlk]
    rfl
  · intro hr hk
    rw [gtail1_filter]
    cases hlk : lastKey k m with
    | none =>
      exact absurd hk
        ((lastKey_eq_none k m).mp hlk r (hperm.mem_iff.mpr hr))
    | some a =>
      have ham : a ∈ dropna l := hperm.subset (lastKey_mem k hlk)
      refine ⟨a, rfl, ham, lastKey_key k hlk, (List.mem_filter.mp ham).2, ?_⟩
      intro s hs hsk
      exact lastKey_sorted_max k m hsort a hlk s (hperm.mem_iff.mpr hs) hsk

/-- Witness for C1 at a concrete pair of records with distinct publish
times, handing the theorem an explicitly publish-ordered permutation. -/
theorem C1_witness :
    ∃ a, (gtail1 [⟨1, 6, some 20, 90⟩, ⟨1, 5, some 10, 100⟩]).filter
        (fun x => decide (key x = (1, 5))) = [a] ∧
      a ∈ dropna [⟨1, 5, some 10, 100⟩, ⟨1, 6, some 20, 90⟩] ∧
      key a = (1, 5) ∧ a.value.isSome = true ∧
      ∀ s ∈ dropna [⟨1, 5, some 10, 100⟩, ⟨1, 6, some 20, 90⟩],
        key s = (1, 5) → s.publish ≤ a.publish :=
  (C1_thm [⟨1, 5, some 10, 100⟩, ⟨1, 6, some 20, 90⟩]
      [⟨1, 6, some 20, 90⟩, ⟨1, 5, some 10, 100⟩] (1, 5) ⟨1, 5, some 10, 100⟩
      (by decide) (by decide)).2 (by decide) (by decide)

/-- C1 counterexample: two non-null records with the same key and the same
(maximal) publish time — a 2-row frame, where numpy's sort is its stable
insertion sort, so `drop_na_get_final` is exact here. The claim as stated
predicts the first-seen record (value 10) is kept; the code keeps the
last-seen record (value 20). -/
theorem C1_counterexample :
    drop_na_get_final [⟨1, 5, some 10, 100⟩, ⟨1, 5, some 20, 100⟩] =
        [⟨1, 5, some 20, 100⟩] ∧
      (⟨1, 5, some 20, 100⟩ : Rec) ≠ ⟨1, 5, some 10, 100⟩ := by
  constructor
  · rfl
  · decide

/-- C8 (amended): re-normalizing a normalized frame returns exactly the
same records — a permutation with identical per-key content, one record per
`(calendarDate, periodKey)` pair appearing with a non-null value — for
every tie order the unspecified sort may use on either run (`m1` is the
sorted frame of the first run, `m2` the re-sort of its output); frame
equality including row order holds under the stable small-frame tie order
(`drop_na_get_final`), but is not guaranteed in general, as the
counterexample shows. -/
theorem C8_thm (l m1 m2 : List Rec) (k : Nat × Nat)
    (hp1 : m1.Perm (dropna l))
    (_hs1 : m1.Pairwise fun a b => a.publish ≤ b.publish)
    (hp2 : m2.Perm (dropna (gtail1 m1)))
    (_hs2 : m2.Pairwise fun a b => a.publish ≤ b.publish) :
    (gtail1 m2).Perm (gtail1 m1) ∧
      (gtail1 m2).filter (fun r => decide (key r = k)) =
        (gtail1 m1).filter (fun r => decide (key r = k)) ∧
      ((gtail1 m1).filter fun r => decide (key r = k)).length =
        (if ∃ r ∈ l, key r = k ∧ r.value.isSome = true then 1 else 0) ∧
      drop_na_get_final (drop_na_get_final l) = drop_na_get_final l := by
  have hval : ∀ r ∈ gtail1 m1, r.value.isSome = true := by
    intro r hr
    have h1 : r ∈ m1 := (gtail1_sublist m1).subset hr
    exact (List.mem_filter.mp (hp1.subset h1)).2
  have hdropna : dropna (gtail1 m1) = gtail1 m1 := by
    rw [dropna, List.filter_eq_self]
    exact hval
  have hkeys1 : (gtail1 m1).Pairwise fun a b => key a ≠ key b :=
    gtail1_pairwise_keys m1
  have hperm2 : m2.Perm (gtail1 m1) := by
    rw [hdropna] at hp2
    exact hp2
  have hkeys2 : m2.Pairwise fun a b => key a ≠ key b :=
    (hperm2.pairwise_iff fun h he => h he.symm).mpr hkeys1
  have hg2 : gtail1 m2 = m2 := gtail1_eq_of_unique m2 hkeys2
  refine ⟨?_, ?_, ?_, final_idempotent l⟩
  · rw [hg2]
    exact hperm2
  · rw [hg2]
    exact perm_eq_of_length_le_one (hperm2.filter _)
      (filter_key_length_le_one k m2 hkeys2)
  · rw [gtail1_filter]
    cases hlk : lastKey k m1 with
    | none =>
      have hnone := (lastKey_eq_none k m1).mp hlk
      rw [if_neg]
      · rfl
      · rintro ⟨r, hrl, hrk, hrv⟩
        exact hnone r (hp1.mem_iff.mpr (List.mem_filter.mpr ⟨hrl, hrv⟩)) hrk
    | some a =>
      have ham : a ∈ dropna l := hp1.subset (lastKey_mem k hlk)
      have hfil := List.mem_filter.mp ham
      rw [if_pos ⟨a, hfil.1, lastKey_key k hlk, hfil.2⟩]
      rfl

/-- Witness for C8 at concrete frames: two distinct-keyed records with
distinct publish times, re-sorted in the only admissible order. -/
theorem C8_witness :
    (gtail1 [⟨1, 5, some 10, 90⟩, ⟨2, 6, some 20, 100⟩]).Perm
        (gtail1 [⟨1, 5, some 10, 90⟩, ⟨2, 6, some 20, 100⟩]) ∧
      (gtail1 [⟨1, 5, some 10, 90⟩, ⟨2, 6, some 20, 100⟩]).filter
          (fun r => decide (key r = (1, 5))) =
        (gtail1 [⟨1, 5, some 10, 90⟩, ⟨2, 6, some 20, 100⟩]).filter
          (fun r => decide (key r = (1, 5))) ∧
      ((gtail1 [⟨1, 5, some 10, 90⟩, ⟨2, 6, some 20, 100⟩]).filter
          fun r => decide (key r = (1, 5))).length =
        (if ∃ r ∈ ([⟨1, 5, some 10, 90⟩, ⟨2, 6, some 20, 100⟩] : List Rec),
            key r = (1, 5) ∧ r.value.isSome = true then 1 else 0) ∧
      drop_na_get_final
          (drop_na_get_final [⟨1, 5, some 10, 90⟩, ⟨2, 6, some 20, 100⟩]) =
        drop_na_get_final [⟨1, 5, some 10, 90⟩, ⟨2, 6, some 20, 100⟩] :=
  C8_thm [⟨1, 5, some 10, 90⟩, ⟨2, 6, some 20, 100⟩]
    [⟨1, 5, some 10, 90⟩, ⟨2, 6, some 20, 100⟩]
    [⟨1, 5, some 10, 90⟩, ⟨2, 6, some 20, 100⟩] (1, 5)
    (by decide) (by decide) (by decide) (by decide)

/-- C8 counterexample: two records with distinct keys but one common
publish time. Both row orders are publish-ordered permutations, so the
unspecified tie order of `sort_values` admits either as the re-sort of the
normalized frame (and beyond numpy's 16-element insertion-sort cutoff its
introsort does reorder tied rows); under the reversed admissible order the
re-normalized frame differs from the normalized one in row order, so
`normalize(normalize(x)) == normalize(x)` as frame equality is not
guaranteed by the code. -/
theorem C8_counterexample :
    List.Perm [⟨1, 5, some 10, 100⟩, ⟨2, 6, some 20, 100⟩]
        (dropna [⟨1, 5, some 10, 100⟩, ⟨2, 6, some 20, 100⟩]) ∧
      List.Pairwise (fun a b : Rec => a.publish ≤ b.publish)
        [⟨1, 5, some 10, 100⟩, ⟨2, 6, some 20, 100⟩] ∧
      gtail1 [⟨1, 5, some 10, 100⟩, ⟨2, 6, some 20, 100⟩] =
        [⟨1, 5, some 10, 100⟩, ⟨2, 6, some 20, 100⟩] ∧
      List.Perm [⟨2, 6, some 20, 100⟩, ⟨1, 5, some 10, 100⟩]
        (dropna (gtail1 [⟨1, 5, some 10, 100⟩, ⟨2, 6, some 20, 100⟩])) ∧
      List.Pairwise (fun a b : Rec => a.publish ≤ b.publish)
        [⟨2, 6, some 20, 100⟩, ⟨1, 5, some 10, 100⟩] ∧
      gtail1 [⟨2, 6, some 20, 100⟩, ⟨1, 5, some 10, 100⟩] ≠
        gtail1 [⟨1, 5, some 10, 100⟩, ⟨2, 6, some 20, 100⟩] := by decide

/-! ## Diff engine (`plot_diff`, task1.py lines 230-279) -/

/-- A row of a normalized snapshot frame as consumed by `plot_diff`:
`settlementDate`, `settlementPeriod` and the `indicatedImbalance` value.
The frames handed to `plot_diff` have been through `drop_na_get_final`, so
the value cell is present; publish times and the presentation columns play
no role in the merge/delta logic and are omitted. -/
structure Row where
  date : Nat
  period : Nat
  value : Int
deriving DecidableEq

/-- `series.unique()` with an accumulator of already-seen values: the
distinct values in first-appearance order. -/
def uniqAux : List Nat → List Nat → List Nat
  | _, [] => []
  | seen, d :: ds =>
    if d ∈ seen then uniqAux seen ds else d :: uniqAux (d :: seen) ds

/-- `prev_df["settlementDate"].unique()` (task1.py lines 240-241): the
distinct values of the column in first-appearance order. -/
def uniq (l : List Nat) : List Nat := uniqAux [] l

/-- The merge-key decision of `plot_diff` (task1.py lines 243-249):
`len(prev_dates) == 1 and len(new_dates) == 1 and prev_dates[0] == new_dates[0]`. -/
def sameDateKey (prev new : List Row) : Bool :=
  match uniq (prev.map Row.date), uniq (new.map Row.date) with
  | [d1], [d2] => decide (d1 = d2)
  | _, _ => false

/-- One row of the outer-merged frame built by `plot_diff`: the merge key
(optional `settlementDate` component — present exactly when the same-date
branch keys on both columns — and the `settlementPeriod`), and the
`indicatedImbalance_prev` / `indicatedImbalance_new` cells, where `none`
models the NaN produced on the unmatched side of the outer join. -/
structure DiffRow where
  mkey : Option Nat × Nat
  prevVal : Option Int
  newVal : Option Int
deriving DecidableEq

/-- `prev_df.merge(new_df, on=merge_on, how="outer")` (task1.py lines
251-256) for a key function `kf` on rows: every pair of prev/new rows
agreeing on the key yields a joined row; a prev row with no key match keeps
a NaN new side, and a new row with no key match keeps a NaN prev side. -/
def outerMerge (kf : Row → Option Nat × Nat) (prev new : List Row) : List DiffRow :=
  (prev.flatMap fun p =>
    if (new.filter fun n => decide (kf n = kf p)).isEmpty then
      [⟨kf p, some p.value, none⟩]
    else
      (new.filter fun n => decide (kf n = kf p)).map fun n =>
        ⟨kf p, some p.value, some n.value⟩) ++
  ((new.filter fun n => prev.all fun p => decide (kf p ≠ kf n)).map
    fun n => ⟨kf n, none, some n.value⟩)

/-- The key actually used by the merge for the given pair of snapshots. -/
def effKey (prev new : List Row) (r : Row) : Option Nat × Nat :=
  if sameDateKey prev new then (some r.date, r.period) else (none, r.period)

/-- The merged frame built by `plot_diff` (task1.py lines 239-256): key on
`(settlementDate, settlementPeriod)` when both snapshots carry one and the
same date, on `settlementPeriod` alone otherwise. -/
def plot_diff_merged (prev new : List Row) : List DiffRow :=
  if sameDateKey prev new then
    outerMerge (fun r => (some r.date, r.period)) prev new
  else
    outerMerge (fun r => (none, r.period)) prev new

/-- `merged["delta"] = merged["indicatedImbalance_new"] -
merged["indicatedImbalance_prev"]` (task1.py line 263), with NaN
propagation: the delta is absent when either side is. -/
def delta (p n : Option Int) : Option Int :=
  match p, n with
  | some a, some b => some (b - a)
  | _, _ => none

/-- Diff classification per the spec data model: the code carries exactly
this information as the `notna` masks of the two value columns (task1.py
lines 277-279) together with the values; `appeared` = only the new side
present, `disappeared` = only the previous side present. The both-absent
case cannot arise from an outer join and is mapped to `unchanged`. -/
inductive Status where
  | unchanged
  | changed
  | appeared
  | disappeared
deriving DecidableEq

def status (p n : Option Int) : Status :=
  match p, n with
  | some a, some b => if a = b then Status.unchanged else Status.changed
  | some _, none => Status.disappeared
  | none, some _ => Status.appeared
  | none, none => Status.unchanged

/-- The sign lambdas of `plot_diff` (task1.py lines 265-274):
`"Positive" if pd.notna(x) and x >= 0 else "Negative" if pd.notna(x) else None`. -/
def diff_sign (x : Option Int) : Option String :=
  match x with
  | some v => if v ≥ 0 then some "Positive" else some "Negative"
  | none => none

/-- The lambda of `imbalance_sign` (task1.py lines 123-128):
`"Positive" if x >= 0 else "Negative"`; a NaN cell compares as not `>= 0`
and is labelled `"Negative"`. -/
def imbalance_sign (x : Option Int) : String :=
  match x with
  | some v => if v ≥ 0 then "Positive" else "Negative"
  | none => "Negative"

def plot_bg : String := "#f2e6d8"

def ft_green_light : String := "#e3f2e1"

def ft_red_light : String := "#f8dad5"

/-- Row colouring of the forecast-vs-actual table (task2.py lines 489-500):
plot background colour for a NaN `diff_MW`, light green for `diff_MW >= 0`,
light red otherwise. -/
def row_color (v : Option Int) : String :=
  match v with
  | none => plot_bg
  | some x => if x ≥ 0 then ft_green_light else ft_red_light

theorem uniqAux_eq_nil :
    ∀ (l seen : List Nat), uniqAux seen l = [] ↔ ∀ x ∈ l, x ∈ seen := by
  intro l
  induction l with
  | nil => intro seen; simp [uniqAux]
  | cons d ds ih =>
    intro seen
    simp only [uniqAux]
    by_cases hc : d ∈ seen
    · rw [if_pos hc, ih seen]
      constructor
      · intro h x hx
        rcases List.mem_cons.mp hx with rfl | hx2
        · exact hc
        · exact h x hx2
      · intro h x hx
        exact h x (List.mem_cons_of_mem d hx)
    · rw [if_neg hc]
      constructor
      · intro h; cases h
      · intro h
        exact absurd (h d (List.mem_cons_self d ds)) hc

theorem uniqAux_eq_single :
    ∀ (l seen : List Nat) (d : Nat),
      uniqAux seen l = [d] ↔
        (∃ x ∈ l, x ∉ seen) ∧ ∀ x ∈ l, x ∈ seen ∨ x = d := by
  intro l
  induction l with
  | nil =>
    intro seen d
    simp [uniqAux]
  | cons e es ih =>
    intro seen d
    simp only [uniqAux]
    by_cases hc : e ∈ seen
    · rw [if_pos hc, ih seen d]
      constructor
      · rintro ⟨⟨x, hx, hxc⟩, hall⟩
        refine ⟨⟨x, List.mem_cons_of_mem e hx, hxc⟩, fun y hy => ?_⟩
        rcases List.mem_cons.mp hy with rfl | hy2
        · exact Or.inl hc
        · exact hall y hy2
      · rintro ⟨⟨x, hx, hxc⟩, hall⟩
        rcases List.mem_cons.mp hx with rfl | hx2
        · exact absurd hc hxc
        · exact ⟨⟨x, hx2, hxc⟩, fun y hy => hall y (List.mem_cons_of_mem e hy)⟩
    · rw [if_neg hc]
      constructor
      · intro h
        have hed : e = d := ((List.cons.injEq _ _ _ _).mp h).1
        have htl : uniqAux (e :: seen) es = [] := ((List.cons.injEq _ _ _ _).mp h).2
        have hall := (uniqAux_eq_nil es (e :: seen)).mp htl
        subst hed
        refine ⟨⟨e, List.mem_cons_self e es, hc⟩, fun y hy => ?_⟩
        rcases List.mem_cons.mp hy with rfl | hy2
        · exact Or.inr rfl
        · rcases List.mem_cons.mp (hall y hy2) with rfl | hy3
          · exact Or.inr rfl
          · exact Or.inl hy3
      · rintro ⟨-, hall⟩
        have hed : e = d := by
          rcases hall e (List.mem_cons_self e es) with h1 | h2
          · exact absurd h1 hc
          · exact h2
        subst hed
        have htl : uniqAux (e :: seen) es = [] := by
          rw [uniqAux_eq_nil]
          intro y hy
          rcases hall y (List.mem_cons_of_mem e hy) with h1 | h2
          · exact List.mem_cons_of_mem e h1
          · rw [h2]
            exact List.mem_cons_self e seen
        rw [htl]

theorem uniq_eq_nil (l : List Nat) : uniq l = [] ↔ l = [] := by
  cases l with
  | nil => simp [uniq, uniqAux]
  | cons d ds =>
    rw [uniq, uniqAux_eq_nil]
    constructor
    · intro h
      exact absurd (h d (List.mem_cons_self d ds)) (List.not_mem_nil d)
    · intro h
      cases h

theorem uniq_eq_single (l : List Nat) (d : Nat) :
    uniq l = [d] ↔ l ≠ [] ∧ ∀ x ∈ l, x = d := by
  rw [uniq, uniqAux_eq_single]
  constructor
  · rintro ⟨⟨x, hx, -⟩, hall⟩
    refine ⟨?_, fun y hy => ?_⟩
    · intro hnil
      rw [hnil] at hx
      cases hx
    rcases hall y hy with h1 | h2
    · exact absurd h1 (List.not_mem_nil y)
    · exact h2
  · rintro ⟨hne, hall⟩
    cases l with
    | nil => exact absurd rfl hne
    | cons e es =>
      exact ⟨⟨e, List.mem_cons_self e es, List.not_mem_nil e⟩,
        fun y hy => Or.inr (hall y hy)⟩

/-- The same-date branch is taken iff both snapshots are nonempty and all
their rows carry one common `settlementDate`. -/
theorem sameDateKey_iff (prev new : List Row) :
    sameDateKey prev new = true ↔
      ∃ d, prev ≠ [] ∧ new ≠ [] ∧ (∀ r ∈ prev, r.date = d) ∧ ∀ r ∈ new, r.date = d := by
  constructor
  · intro h
    rw [sameDateKey] at h
    cases h1 : uniq (prev.map Row.date) with
    | nil => rw [h1] at h; cases h
    | cons d1 t1 =>
      cases t1 with
      | cons x t => rw [h1] at h; cases h
      | nil =>
        cases h2 : uniq (new.map Row.date) with
        | nil => rw [h1, h2] at h; cases h
        | cons d2 t2 =>
          cases t2 with
          | cons x t => rw [h1, h2] at h; cases h
          | nil =>
            rw [h1, h2] at h
            have hd : d1 = d2 := of_decide_eq_true h
            obtain ⟨hp1, hp2⟩ := (uniq_eq_single _ d1).mp h1
            obtain ⟨hn1, hn2⟩ := (uniq_eq_single _ d2).mp h2
            subst hd
            refine ⟨d1, ?_, ?_, ?_, ?_⟩
            · intro hx
              rw [hx] at hp1
              exact hp1 rfl
            · intro hx
              rw [hx] at hn1
              exact hn1 rfl
            · intro r hr
              exact hp2 r.date (List.mem_map.mpr ⟨r, hr, rfl⟩)
            · intro r hr
              exact hn2 r.date (List.mem_map.mpr ⟨r, hr, rfl⟩)
  · rintro ⟨d, hp, hn, hpall, hnall⟩
    have h1 : uniq (prev.map Row.date) = [d] := by
      rw [uniq_eq_single]
      refine ⟨fun hmap => hp (List.map_eq_nil_iff.mp hmap), fun x hx => ?_⟩
      obtain ⟨r, hr, rfl⟩ := List.mem_map.mp hx
      exact hpall r hr
    have h2 : uniq (new.map Row.date) = [d] := by
      rw [uniq_eq_single]
      refine ⟨fun hmap => hn (List.map_eq_nil_iff.mp hmap), fun x hx => ?_⟩
      obtain ⟨r, hr, rfl⟩ := List.mem_map.mp hx
      exact hnall r hr
    rw [sameDateKey, h1, h2]
    simp

theorem plot_diff_merged_eq (prev new : List Row) :
    plot_diff_merged prev new = outerMerge (effKey prev new) prev new := by
  by_cases h : sameDateKey prev new = true
  · have hf : effKey prev new = fun r => (some r.date, r.period) := by
      funext r
      rw [effKey, if_pos h]
    rw [hf]
    simp [plot_diff_merged, h]
  · have hf : effKey prev new = fun r => (none, r.period) := by
      funext r
      rw [effKey, if_neg h]
    rw [hf]
    simp [plot_diff_merged, h]

/-- The key set of the outer join is the union of the key sets of the two
input frames. -/
theorem outerMerge_keys (kf : Row → Option Nat × Nat) (prev new : List Row)
    (k : Option Nat × Nat) :
    (∃ row ∈ outerMerge kf prev new, row.mkey = k) ↔
      (∃ p ∈ prev, kf p = k) ∨ ∃ n ∈ new, kf n = k := by
  rw [outerMerge]
  constructor
  · rintro ⟨row, hrow, hkey⟩
    rcases List.mem_append.mp hrow with hl | hr
    · rw [List.mem_flatMap] at hl
      obtain ⟨p, hp, hin⟩ := hl
      left
      refine ⟨p, hp, ?_⟩
      by_cases hms : ((new.filter fun n => decide (kf n = kf p)).isEmpty) = true
      · rw [if_pos hms] at hin
        rw [List.mem_singleton] at hin
        rw [hin] at hkey
        exact hkey
      · rw [if_neg hms] at hin
        obtain ⟨n, hn, hrw⟩ := List.mem_map.mp hin
        rw [← hrw] at hkey
        exact hkey
    · obtain ⟨n, hn, hrw⟩ := List.mem_map.mp hr
      right
      rw [← hrw] at hkey
      exact ⟨n, (List.mem_filter.mp hn).1, hkey⟩
  · intro h
    rcases h with ⟨p, hp, hkp⟩ | ⟨n, hn, hkn⟩
    · by_cases hms : ((new.filter fun n => decide (kf n = kf p)).isEmpty) = true
      · refine ⟨⟨kf p, some p.value, none⟩, ?_, hkp⟩
        apply List.mem_append_left
        rw [List.mem_flatMap]
        refine ⟨p, hp, ?_⟩
        rw [if_pos hms]
        exact List.mem_singleton.mpr rfl
      · have hne : (new.filter fun n => decide (kf n = kf p)) ≠ [] := by
          intro hnil
          rw [hnil] at hms
          exact hms rfl
        obtain ⟨n, hnn⟩ := List.exists_mem_of_ne_nil _ hne
        refine ⟨⟨kf p, some p.value, some n.value⟩, ?_, hkp⟩
        apply List.mem_append_left
        rw [List.mem_flatMap]
        refine ⟨p, hp, ?_⟩
        rw [if_neg hms]
        exact List.mem_map.mpr ⟨n, hnn, rfl⟩
    · by_cases hex : ∃ p ∈ prev, kf p = kf n
      · obtain ⟨p, hp, hkpn⟩ := hex
        refine ⟨⟨kf p, some p.value, some n.value⟩, ?_, by rw [hkpn, hkn]⟩
        apply List.mem_append_left
        rw [List.mem_flatMap]
        refine ⟨p, hp, ?_⟩
        have hnf : n ∈ new.filter fun m => decide (kf m = kf p) :=
          List.mem_filter.mpr ⟨hn, decide_eq_true_eq.mpr hkpn.symm⟩
        have hms : ((new.filter fun m => decide (kf m = kf p)).isEmpty) ≠ true := by
          intro hI
          rw [List.isEmpty_iff] at hI
          rw [hI] at hnf
          cases hnf
        rw [if_neg hms]
        exact List.mem_map.mpr ⟨n, hnf, rfl⟩
      · push_neg at hex
        refine ⟨⟨kf n, none, some n.value⟩, ?_, hkn⟩
        apply List.mem_append_right
        apply List.mem_map.mpr
        refine ⟨n, List.mem_filter.mpr ⟨hn, ?_⟩, rfl⟩
        rw [List.all_eq_true]
        intro p hp
        exact decide_eq_true_eq.mpr (hex p hp)

/-- A merged row whose key matches no new-side row is a prev-only row:
present previous value, NaN new value. -/
theorem outerMerge_only_prev (kf : Row → Option Nat × Nat) (prev new : List Row)
    (row : DiffRow) (hrow : row ∈ outerMerge kf prev new)
    (honly : ∀ n ∈ new, kf n ≠ row.mkey) :
    row.newVal = none ∧ ∃ v, row.prevVal = some v := by
  rcases List.mem_append.mp hrow with hl | hr
  · rw [List.mem_flatMap] at hl
    obtain ⟨p, hp, hin⟩ := hl
    by_cases hms : ((new.filter fun n => decide (kf n = kf p)).isEmpty) = true
    · rw [if_pos hms] at hin
      rw [List.mem_singleton] at hin
      rw [hin]
      exact ⟨rfl, p.value, rfl⟩
    · rw [if_neg hms] at hin
      obtain ⟨n, hn, hrw⟩ := List.mem_map.mp hin
      have h2 := List.mem_filter.mp hn
      have hkn : kf n = row.mkey := by
        rw [← hrw]
        exact decide_eq_true_eq.mp h2.2
      exact absurd hkn (honly n h2.1)
  · obtain ⟨n, hn, hrw⟩ := List.mem_map.mp hr
    have hkn : kf n = row.mkey := by rw [← hrw]
    exact absurd hkn (honly n (List.mem_filter.mp hn).1)

/-- A merged row whose key matches no prev-side row is a new-only row:
NaN previous value, present new value. -/
theorem outerMerge_only_new (kf : Row → Option Nat × Nat) (prev new : List Row)
    (row : DiffRow) (hrow : row ∈ outerMerge kf prev new)
    (honly : ∀ p ∈ prev, kf p ≠ row.mkey) :
    row.prevVal = none ∧ ∃ v, row.newVal = some v := by
  rcases List.mem_append.mp hrow with hl | hr
  · rw [List.mem_flatMap] at hl
    obtain ⟨p, hp, hin⟩ := hl
    have hkp : kf p = row.mkey := by
      by_cases hms : ((new.filter fun n => decide (kf n = kf p)).isEmpty) = true
      · rw [if_pos hms] at hin
        rw [List.mem_singleton] at hin
        rw [hin]
      · rw [if_neg hms] at hin
        obtain ⟨n, hn, hrw⟩ := List.mem_map.mp hin
        rw [← hrw]
    exact absurd hkp (honly p hp)
  · obtain ⟨n, hn, hrw⟩ := List.mem_map.mp hr
    rw [← hrw]
    exact ⟨rfl, n.value, rfl⟩

theorem delta_none (p n : Option Int) (h : p = none ∨ n = none) : delta p n = none := by
  rcases h with rfl | rfl
  · cases n <;> rfl
  · cases p <;> rfl

/-- C3: the diff key set equals the union of the keys present in the previous
and in the new snapshot (outer join); a key present only in the previous
snapshot is classified `disappeared`, a key present only in the new snapshot
`appeared`; and the delta is null whenever either side's value is missing. -/
theorem C3_thm (prev new : List Row) (k : Option Nat × Nat) (row : DiffRow) :
    ((∃ r ∈ plot_diff_merged prev new, r.mkey = k) ↔
        (∃ p ∈ prev, effKey prev new p = k) ∨ ∃ n ∈ new, effKey prev new n = k) ∧
      (row ∈ plot_diff_merged prev new →
        (∀ n ∈ new, effKey prev new n ≠ row.mkey) →
          status row.prevVal row.newVal = Status.disappeared) ∧
      (row ∈ plot_diff_merged prev new →
        (∀ p ∈ prev, effKey prev new p ≠ row.mkey) →
          status row.prevVal row.newVal = Status.appeared) ∧
      (row ∈ plot_diff_merged prev new →
        row.prevVal = none ∨ row.newVal = none →
          delta row.prevVal row.newVal = none) := by
  rw [plot_diff_merged_eq]
  refine ⟨outerMerge_keys _ _ _ k, fun hrow honly => ?_, fun hrow honly => ?_,
    fun _ hnone => delta_none _ _ hnone⟩
  · obtain ⟨hn, v, hv⟩ := outerMerge_only_prev _ _ _ row hrow honly
    rw [hv, hn]
    rfl
  · obtain ⟨hp, v, hv⟩ := outerMerge_only_new _ _ _ row hrow honly
    rw [hp, hv]
    rfl

/-- Witness for C3: concrete one-row snapshots over the same date with
disjoint periods; the prev-only key is classified `disappeared` with a null
delta and the new-only key `appeared`. -/
theorem C3_witness :
    status (some (100 : Int)) none = Status.disappeared ∧
      status none (some (50 : Int)) = Status.appeared ∧
      delta (some (100 : Int)) none = none := by
  have h1 := C3_thm [⟨1, 1, 100⟩] [⟨1, 2, 50⟩] ((some 1, 1) : Option Nat × Nat)
      ⟨(some 1, 1), some 100, none⟩
  have h2 := C3_thm [⟨1, 1, 100⟩] [⟨1, 2, 50⟩] ((some 1, 2) : Option Nat × Nat)
      ⟨(some 1, 2), none, some 50⟩
  exact ⟨h1.2.1 (by decide) (by decide), h2.2.2.1 (by decide) (by decide),
    h1.2.2.2 (by decide) (Or.inr (by decide))⟩

/-- C4: the diff joins on `(calendarDate, periodKey)` iff both snapshots
carry exactly one `calendarDate` value and those values are equal; in every
other case it joins on `periodKey` alone. -/
theorem C4_thm (prev new : List Row) :
    (sameDateKey prev new = true ↔
        ∃ d, prev ≠ [] ∧ new ≠ [] ∧ (∀ r ∈ prev, r.date = d) ∧ ∀ r ∈ new, r.date = d) ∧
      (sameDateKey prev new = true →
        plot_diff_merged prev new =
          outerMerge (fun r => (some r.date, r.period)) prev new) ∧
      (sameDateKey prev new = false →
        plot_diff_merged prev new =
          outerMerge (fun r => (none, r.period)) prev new) := by
  refine ⟨sameDateKey_iff prev new, fun h => ?_, fun h => ?_⟩
  · simp [plot_diff_merged, h]
  · simp [plot_diff_merged, h]

/-- Witness for C4: snapshots over two different dates, so the merge keys on
the period alone. -/
theorem C4_witness :
    sameDateKey [⟨1, 1, 100⟩] [⟨2, 1, 150⟩] = false ∧
      plot_diff_merged [⟨1, 1, 100⟩] [⟨2, 1, 150⟩] =
        outerMerge (fun r => (none, r.period)) [⟨1, 1, 100⟩] [⟨2, 1, 150⟩] :=
  ⟨by decide, (C4_thm [⟨1, 1, 100⟩] [⟨2, 1, 150⟩]).2.2 (by decide)⟩

/-! ## RetryingFetcher (`fetch_data`, task1.py lines 31-78) -/

/-- Outcome of one `rq.get` call: a response with an HTTP status code, or a
raised transport exception. -/
inductive GetOutcome where
  | ok (stat : Nat)
  | exn
deriving DecidableEq

/-- One iteration of the `while` body of `fetch_data` (task1.py lines
62-70): `r1 = rq.get(...)`, then on return `r2 = rq.get(...)`; the `break`
condition is both status codes 200. A call that raises leaves the
corresponding variable at its previous value, and the second call is not
reached when the first raises. `env attempt` gives the two sub-request
outcomes of that attempt. Returns the new `r1`, the new `r2`, and whether
`break` was reached. -/
def attemptStep (env : Nat → GetOutcome × GetOutcome) (attempt : Nat)
    (r1 r2 : Option Nat) : Option Nat × Option Nat × Bool :=
  match (env attempt).1 with
  | GetOutcome.exn => (r1, r2, false)
  | GetOutcome.ok s1 =>
    match (env attempt).2 with
    | GetOutcome.exn => (some s1, r2, false)
    | GetOutcome.ok s2 => (some s1, some s2, decide (s1 = 200) && decide (s2 = 200))

/-- The `while attempt <= query_attempt_count` loop of `fetch_data`
(task1.py lines 61-73), recursing on the number of remaining attempts. -/
def fetchIter (env : Nat → GetOutcome × GetOutcome) :
    Nat → Nat → Option Nat → Option Nat → Option Nat × Option Nat
  | _, 0, r1, r2 => (r1, r2)
  | attempt, n + 1, r1, r2 =>
    match attemptStep env attempt r1 r2 with
    | (r1a, r2a, brk) =>
      if brk then (r1a, r2a) else fetchIter env (attempt + 1) n r1a r2a

/-- `fetch_data` (task1.py lines 31-78) for a given environment of
sub-request outcomes per attempt (attempts are 1-indexed): run the retry
loop, then raise (`Except.error`) unless the finally retained `r1` and `r2`
both exist and both carry status 200 (task1.py lines 75-78). -/
def fetch_data (env : Nat → GetOutcome × GetOutcome)
    (query_attempt_count : Nat) : Except Unit (Nat × Nat) :=
  match fetchIter env 1 query_attempt_count none none with
  | (some s1, some s2) =>
    if s1 = 200 ∧ s2 = 200 then Except.ok (s1, s2) else Except.error ()
  | _ => Except.error ()

/-- The attempt-outcome environment exhibiting the C2 bug: attempt 1 gets
statuses (500, 200) — a non-success, so the attempt fails; attempt 2 gets
status 200 on the first sub-request and a raised exception on the second —
the attempt fails, but `r2` still holds attempt 1's stale 200 response. -/
def badEnv : Nat → GetOutcome × GetOutcome := fun i =>
  if i = 1 then (GetOutcome.ok 500, GetOutcome.ok 200)
  else (GetOutcome.ok 200, GetOutcome.exn)

/-- C2 (code bug): with `query_attempt_count = 2` under `badEnv` neither
attempt reaches the `break` — every attempt fails — yet `fetch_data`
returns success `(200, 200)` instead of raising: `r1` is attempt 2's
response while `r2` is attempt 1's stale response, so the final status
check passes on a pair mixed from two failed attempts, contradicting the
claimed (and intended) FetchFailure after `maxAttempts` failed attempts. -/
theorem C2_thm :
    (attemptStep badEnv 1 none none).2.2 = false ∧
      (attemptStep badEnv 2 (some 500) (some 200)).2.2 = false ∧
      fetch_data badEnv 2 = Except.ok (200, 200) :=
  ⟨rfl, rfl, rfl⟩

/-! ## PollScheduler (`auto_update_loop`, task1.py lines 466-552) -/

/-- The scheduler's persistent state across cycles: the accepted snapshot
(`prev_df`, coded by an identifier) and its maximum `publishTime_cest`
(`prev_max_publish`). -/
structure LoopState where
  snap : Nat
  pub : Int
deriving DecidableEq

/-- Trace of one cycle body: resulting state, number of fetch+normalize
calls performed, backoff sleeps performed (seconds, in order), and number
of diffs emitted. -/
structure CycleResult where
  state : LoopState
  fetchCount : Nat
  sleeps : List Nat
  diffs : Nat
deriving DecidableEq

/-- The `for inc in retry_increments` loop (task1.py lines 531-547): sleep
`inc`, fetch and normalize (`fetches i` is the `i`-th fetch of the cycle;
`Except.error` models an uncaught exception from `full_run_and_plot`),
accept and `break` on a strictly newer publish time. There is no exception
handler, so an error propagates. -/
def runRetriesE (fetches : Nat → Except Unit (Nat × Int)) (st : LoopState) :
    List Nat → Nat → Except Unit (LoopState × Nat × List Nat × Nat)
  | [], _ => Except.ok (st, 0, [], 0)
  | inc :: rest, i =>
    match fetches i with
    | Except.error e => Except.error e
    | Except.ok (s, p) =>
      if p > st.pub then Except.ok (⟨s, p⟩, 1, [inc], 1)
      else
        match runRetriesE fetches st rest (i + 1) with
        | Except.error e => Except.error e
        | Except.ok (st2, c, sl, d) => Except.ok (st2, c + 1, inc :: sl, d)

/-- The body of one `while True` cycle of `auto_update_loop` after the
interval wait (task1.py lines 505-552): first check; a strictly newer
publish time is a first-attempt hit (diff emitted, state replaced); with
retry disabled a miss changes nothing; otherwise the retry sequence runs.
`fetches 0` is the first check, `fetches j` the `j`-th retry; an
`Except.error` models an uncaught exception (the `fetch_data` raise after
exhausted attempts, or malformed input during normalization), which
propagates out of the loop. -/
def runCycleE (retry : Bool) (incs : List Nat)
    (fetches : Nat → Except Unit (Nat × Int)) (st : LoopState) :
    Except Unit CycleResult :=
  match fetches 0 with
  | Except.error e => Except.error e
  | Except.ok (s, p) =>
    if p > st.pub then Except.ok ⟨⟨s, p⟩, 1, [], 1⟩
    else if retry = false then Except.ok ⟨st, 1, [], 0⟩
    else
      match runRetriesE fetches st incs 1 with
      | Except.error e => Except.error e
      | Except.ok (st2, c, sl, d) => Except.ok ⟨st2, 1 + c, sl, d⟩

/-- `next_expected = prev_max_publish + timedelta(minutes=update_interval_minutes)`
(task1.py line 486), in abstract time units. -/
def next_expected (st : LoopState) (interval : Int) : Int := st.pub + interval

/-- Result of a full cycle including the initial interval wait. -/
structure FullCycleResult where
  state : LoopState
  waited : Int
  fetchCount : Nat
  backoffSleeps : List Nat
  diffs : Nat
deriving DecidableEq

/-- One full cycle of `auto_update_loop` (task1.py lines 485-552): compute
`seconds_to_wait = next_expected - now` from the stored publish time; sleep
it when positive, otherwise check immediately; then run the cycle body. -/
def runFullCycleE (retry : Bool) (incs : List Nat) (interval now : Int)
    (fetches : Nat → Except Unit (Nat × Int)) (st : LoopState) :
    Except Unit FullCycleResult :=
  match runCycleE retry incs fetches st with
  | Except.error e => Except.error e
  | Except.ok c =>
    Except.ok ⟨c.state,
      if next_expected st interval - now > 0 then next_expected st interval - now
      else 0, c.fetchCount, c.sleeps, c.diffs⟩

theorem runRetriesE_state (fetches : Nat → Except Unit (Nat × Int))
    (st : LoopState) :
    ∀ (incs : List Nat) (i : Nat) (st2 : LoopState) (c : Nat) (sl : List Nat)
      (d : Nat), runRetriesE fetches st incs i = Except.ok (st2, c, sl, d) →
        st2 = st ∨ st2.pub > st.pub := by
  intro incs
  induction incs with
  | nil =>
    intro i st2 c sl d h
    simp only [runRetriesE, Except.ok.injEq, Prod.mk.injEq] at h
    exact Or.inl h.1.symm
  | cons inc rest ih =>
    intro i st2 c sl d h
    simp only [runRetriesE] at h
    cases hf : fetches i with
    | error e =>
      rw [hf] at h
      cases h
    | ok q =>
      obtain ⟨s, p⟩ := q
      simp only [hf] at h
      by_cases hp : p > st.pub
      · rw [if_pos hp] at h
        simp only [Except.ok.injEq, Prod.mk.injEq] at h
        right
        rw [← h.1]
        exact hp
      · rw [if_neg hp] at h
        cases hr : runRetriesE fetches st rest (i + 1) with
        | error e =>
          rw [hr] at h
          cases h
        | ok t =>
          rw [hr] at h
          obtain ⟨st3, c3, sl3, d3⟩ := t
          simp only [Except.ok.injEq, Prod.mk.injEq] at h
          rcases ih (i + 1) st3 c3 sl3 d3 hr with h1 | h1
          · left
            rw [← h.1, h1]
          · right
            rw [← h.1]
            exact h1

theorem runRetriesE_allMiss (fetches : Nat → Except Unit (Nat × Int))
    (st : LoopState) :
    ∀ (incs : List Nat) (i : Nat),
      (∀ t, i ≤ t → t < i + incs.length →
        ∃ q, fetches t = Except.ok q ∧ q.2 ≤ st.pub) →
      runRetriesE fetches st incs i = Except.ok (st, incs.length, incs, 0) := by
  intro incs
  induction incs with
  | nil => intro i h; rfl
  | cons inc rest ih =>
    intro i h
    obtain ⟨q, hq, hle⟩ := h i (le_refl i) (by simp)
    obtain ⟨s, p⟩ := q
    simp only [runRetriesE, hq]
    rw [if_neg (not_lt_of_le hle)]
    rw [ih (i + 1) (fun t ht1 ht2 => h t (by omega) (by simp at ht2 ⊢; omega))]
    rfl

theorem runRetriesE_hit (fetches : Nat → Except Unit (Nat × Int))
    (st : LoopState) :
    ∀ (incs : List Nat) (i j : Nat) (s2 : Nat) (p2 : Int),
      j < incs.length →
      (∀ t, i ≤ t → t < i + j → ∃ q, fetches t = Except.ok q ∧ q.2 ≤ st.pub) →
      fetches (i + j) = Except.ok (s2, p2) →
      p2 > st.pub →
      runRetriesE fetches st incs i =
        Except.ok (⟨s2, p2⟩, j + 1, incs.take (j + 1), 1) := by
  intro incs
  induction incs with
  | nil =>
    intro i j s2 p2 hj
    exact absurd hj (by simp)
  | cons inc rest ih =>
    intro i j s2 p2 hj hmiss hhit hp
    cases j with
    | zero =>
      rw [Nat.add_zero] at hhit
      simp only [runRetriesE, hhit, if_pos hp]
      rfl
    | succ j2 =>
      obtain ⟨q, hq, hle⟩ := hmiss i (le_refl i) (by omega)
      obtain ⟨s, p⟩ := q
      simp only [runRetriesE, hq]
      rw [if_neg (not_lt_of_le hle)]
      rw [ih (i + 1) j2 s2 p2 (by simpa using hj)
        (fun t ht1 ht2 => hmiss t (by omega) (by omega))
        (by rw [← hhit]; congr 1; omega) hp]
      rfl

theorem runRetriesE_error (fetches : Nat → Except Unit (Nat × Int))
    (st : LoopState) :
    ∀ (incs : List Nat) (i j : Nat),
      j < incs.length →
      (∀ t, i ≤ t → t < i + j → ∃ q, fetches t = Except.ok q ∧ q.2 ≤ st.pub) →
      fetches (i + j) = Except.error () →
      runRetriesE fetches st incs i = Except.error () := by
  intro incs
  induction incs with
  | nil =>
    intro i j hj
    exact absurd hj (by simp)
  | cons inc rest ih =>
    intro i j hj hmiss herr
    cases j with
    | zero =>
      rw [Nat.add_zero] at herr
      simp only [runRetriesE, herr]
    | succ j2 =>
      obtain ⟨q, hq, hle⟩ := hmiss i (le_refl i) (by omega)
      obtain ⟨s, p⟩ := q
      simp only [runRetriesE, hq]
      rw [if_neg (not_lt_of_le hle)]
      rw [ih (i + 1) j2 (by simpa using hj)
        (fun t ht1 ht2 => hmiss t (by omega) (by omega))
        (by rw [← herr]; congr 1; omega)]

/-- C5: the stored snapshot (with its maximum publish timestamp) is
replaced in a cycle iff an examined candidate's maximum publish time is
strictly greater than the stored one. A first-attempt hit replaces
immediately; every accepted state is strictly newer; when the first check
misses and every retry misses (the sequence is exhausted), the state is
unchanged; and a retry hit at position `j` replaces the state and abandons
the remaining retry delays — only the first `j + 1` backoff sleeps happen. -/
theorem C5_thm (incs : List Nat) (fetches : Nat → Except Unit (Nat × Int))
    (st : LoopState) (s s2 : Nat) (p p2 : Int) (j : Nat) :
    (fetches 0 = Except.ok (s, p) → p > st.pub →
        runCycleE true incs fetches st = Except.ok ⟨⟨s, p⟩, 1, [], 1⟩) ∧
      (∀ (r : Bool) (c : CycleResult),
        runCycleE r incs fetches st = Except.ok c →
          c.state = st ∨ c.state.pub > st.pub) ∧
      (fetches 0 = Except.ok (s, p) → p ≤ st.pub →
        (∀ t, 1 ≤ t → t ≤ incs.length →
          ∃ q, fetches t = Except.ok q ∧ q.2 ≤ st.pub) →
        runCycleE true incs fetches st =
          Except.ok ⟨st, 1 + incs.length, incs, 0⟩) ∧
      (fetches 0 = Except.ok (s, p) → p ≤ st.pub → j < incs.length →
        (∀ t, 1 ≤ t → t ≤ j → ∃ q, fetches t = Except.ok q ∧ q.2 ≤ st.pub) →
        fetches (j + 1) = Except.ok (s2, p2) → p2 > st.pub →
        runCycleE true incs fetches st =
          Except.ok ⟨⟨s2, p2⟩, j + 2, incs.take (j + 1), 1⟩) := by
  refine ⟨fun h0 hp => ?_, fun r c h => ?_, fun h0 hp hmiss => ?_,
    fun h0 hp hj hmiss hhit hp2 => ?_⟩
  · simp only [runCycleE, h0, if_pos hp]
  · simp only [runCycleE] at h
    cases hf : fetches 0 with
    | error e =>
      rw [hf] at h
      cases h
    | ok q =>
      obtain ⟨s1, p1⟩ := q
      simp only [hf] at h
      by_cases hp1 : p1 > st.pub
      · rw [if_pos hp1] at h
        simp only [Except.ok.injEq] at h
        right
        rw [← h]
        exact hp1
      · rw [if_neg hp1] at h
        by_cases hr : r = false
        · rw [if_pos hr] at h
          simp only [Except.ok.injEq] at h
          left
          rw [← h]
        · rw [if_neg hr] at h
          cases hrr : runRetriesE fetches st incs 1 with
          | error e =>
            rw [hrr] at h
            cases h
          | ok t =>
            obtain ⟨st2, c2, sl2, d2⟩ := t
            simp only [hrr] at h
            simp only [Except.ok.injEq] at h
            rcases runRetriesE_state fetches st incs 1 st2 c2 sl2 d2 hrr with
              h1 | h1
            · left
              rw [← h, h1]
            · right
              rw [← h]
              exact h1
  · have hret := runRetriesE_allMiss fetches st incs 1
      (fun t ht1 ht2 => hmiss t ht1 (by omega))
    simp only [runCycleE, h0, if_neg (not_lt_of_le hp), hret]
    rfl
  · have hret := runRetriesE_hit fetches st incs 1 j s2 p2 hj
      (fun t ht1 ht2 => hmiss t ht1 (by omega))
      (by rw [← hhit]; congr 1; omega) hp2
    simp only [runCycleE, h0, if_neg (not_lt_of_le hp), hret]
    have hc : 1 + (j + 1) = j + 2 := by omega
    rw [hc, if_neg (by decide)]

/-- The fetch environment for the C5 witness: the first check and the first
retry miss (publish time 0, not newer than the stored 0), the second retry
hits with publish time 5. -/
def fW : Nat → Except Unit (Nat × Int) := fun i =>
  if i = 0 then Except.ok (1, 0)
  else if i = 1 then Except.ok (2, 0)
  else Except.ok (3, 5)

/-- Witness for C5: with increments `[30, 60]`, a miss, a missed retry and a
hit on the second retry give exactly 3 fetches, both backoff sleeps, one
diff, and the strictly newer state. -/
theorem C5_witness :
    runCycleE true [30, 60] fW ⟨0, 0⟩ = Except.ok ⟨⟨3, 5⟩, 3, [30, 60], 1⟩ :=
  (C5_thm [30, 60] fW ⟨0, 0⟩ 1 3 0 5 1).2.2.2 rfl (by decide) (by decide)
    (fun t ht1 ht2 => by
      have ht : t = 1 := le_antisymm ht2 ht1
      rw [ht]
      exact ⟨(2, 0), rfl, by decide⟩)
    rfl (by decide)

/-- C6 counterexample: a cycle whose first fetch raises (the `fetch_data`
raise after exhausted attempts, or malformed input in normalization). The
claim predicts the loop continues with its state unchanged — an `Except.ok`
result carrying state `⟨7, 100⟩` — but `auto_update_loop` has no handler,
so the exception propagates and the cycle (and with it the `while True`
loop) terminates with an error. -/
theorem C6_counterexample :
    runCycleE true [30, 60, 120] (fun _ => Except.error ()) ⟨7, 100⟩ =
      Except.error () := rfl

/-- C6 (amended): an uncaught fetch/normalization exception — in the first
check or in any retry of a cycle — propagates out of the cycle and
terminates the polling loop, instead of being reported and treated as
"no new data". -/
theorem C6_thm (retry : Bool) (incs : List Nat)
    (fetches : Nat → Except Unit (Nat × Int)) (st : LoopState) (s : Nat)
    (p : Int) (j : Nat) :
    (fetches 0 = Except.error () →
        runCycleE retry incs fetches st = Except.error ()) ∧
      (fetches 0 = Except.ok (s, p) → p ≤ st.pub → j < incs.length →
        (∀ t, 1 ≤ t → t ≤ j → ∃ q, fetches t = Except.ok q ∧ q.2 ≤ st.pub) →
        fetches (j + 1) = Except.error () →
        runCycleE true incs fetches st = Except.error ()) := by
  constructor
  · intro h0
    simp only [runCycleE, h0]
  · intro h0 hp hj hmiss herr
    have hret := runRetriesE_error fetches st incs 1 j hj
      (fun t ht1 ht2 => hmiss t ht1 (by omega))
      (by rw [← herr]; congr 1; omega)
    simp only [runCycleE, h0, if_neg (not_lt_of_le hp), hret]
    rfl

/-- The fetch environment for the C6 witness: the first check misses, the
first retry raises. -/
def f6W : Nat → Except Unit (Nat × Int) := fun i =>
  if i = 0 then Except.ok (1, 0) else Except.error ()

/-- Witness for C6: a miss followed by a raising retry terminates the cycle
with the propagated error. -/
theorem C6_witness : runCycleE true [30] f6W ⟨0, 0⟩ = Except.error () :=
  (C6_thm true [30] f6W ⟨0, 0⟩ 1 0 0).2 rfl (by decide) (by decide)
    (fun t ht1 ht2 => absurd (le_trans ht1 ht2) (by decide)) rfl

/-- C7 counterexample: retry disabled, stored publish time 0, interval 30.
First cycle at `now = 5`: waits 25 (up to the expected time 30), finds no
new data, state unchanged. The next cycle at `now = 30` recomputes the wait
from the unchanged publish time: `next_expected` is still 30, the wait
clamps to 0, and the fetch happens immediately — not one full interval
later as the claim predicts ("polls again only after one more full
interval" would require a wait of 30). -/
theorem C7_counterexample :
    runFullCycleE false [] 30 5 (fun _ => Except.ok (7, 0)) ⟨5, 0⟩ =
        Except.ok ⟨⟨5, 0⟩, 25, 1, [], 0⟩ ∧
      runFullCycleE false [] 30 30 (fun _ => Except.ok (7, 0)) ⟨5, 0⟩ =
        Except.ok ⟨⟨5, 0⟩, 0, 1, [], 0⟩ := by
  constructor
  · rfl
  · rfl

/-- C7 (amended): with retry disabled and no new data on the first check, a
cycle performs exactly one fetch, no backoff sleeps, and leaves the stored
snapshot unchanged; the next cycle's wait is recomputed from the unchanged
publish time and clamped at zero — so once the expected time has passed,
the next poll happens immediately rather than one full interval later. -/
theorem C7_thm (incs : List Nat) (interval now : Int)
    (fetches : Nat → Except Unit (Nat × Int)) (st : LoopState) (s : Nat)
    (p : Int) (h0 : fetches 0 = Except.ok (s, p)) (hp : p ≤ st.pub) :
    runFullCycleE false incs interval now fetches st =
      Except.ok ⟨st,
        if next_expected st interval - now > 0 then next_expected st interval - now
        else 0, 1, [], 0⟩ := by
  simp only [runFullCycleE, runCycleE, h0, if_neg (not_lt_of_le hp)]
  rfl

/-- Witness for C7: stored publish 0, interval 30, checking at `now = 40`
(past the expected time): the fetch misses, state unchanged, wait 0. -/
theorem C7_witness :
    runFullCycleE false [30, 60, 120] 30 40 (fun _ => Except.ok (7, 0)) ⟨5, 0⟩ =
      Except.ok ⟨⟨5, 0⟩, 0, 1, [], 0⟩ := by
  have h := C7_thm [30, 60, 120] 30 40 (fun _ => Except.ok (7, 0)) ⟨5, 0⟩ 7 0 rfl
    (by decide)
  rw [h, if_neg (by decide)]

theorem filter_eq_singleton_of_unique (kf : Row → Option Nat × Nat) :
    ∀ (S : List Row) (p : Row), S.Pairwise (fun a b => kf a ≠ kf b) → p ∈ S →
      (S.filter fun n => decide (kf n = kf p)) = [p] := by
  intro S
  induction S with
  | nil =>
    intro p _ hp
    cases hp
  | cons x xs ih =>
    intro p hpw hp
    rw [List.pairwise_cons] at hpw
    obtain ⟨hx, hxs⟩ := hpw
    rcases List.mem_cons.mp hp with rfl | hp2
    · rw [List.filter_cons_of_pos (by simp)]
      have hnil : (xs.filter fun n => decide (kf n = kf p)) = [] := by
        rw [List.filter_eq_nil_iff]
        intro a ha hdec
        exact hx a ha (decide_eq_true_eq.mp hdec).symm
      rw [hnil]
    · rw [List.filter_cons_of_neg
        (by simp only [decide_eq_true_eq]; exact fun h => hx p hp2 h),
        ih p hxs hp2]

/-- Every row of a self-join over pairwise distinct keys pairs a row of the
snapshot with itself. -/
theorem outerMerge_self_rows (kf : Row → Option Nat × Nat) (S : List Row)
    (hpw : S.Pairwise (fun a b => kf a ≠ kf b)) (row : DiffRow)
    (hrow : row ∈ outerMerge kf S S) :
    ∃ r ∈ S, row = ⟨kf r, some r.value, some r.value⟩ := by
  rcases List.mem_append.mp hrow with hl | hr
  · rw [List.mem_flatMap] at hl
    obtain ⟨p, hp, hin⟩ := hl
    rw [filter_eq_singleton_of_unique kf S p hpw hp] at hin
    rw [if_neg (by simp)] at hin
    simp only [List.map_singleton, List.mem_singleton] at hin
    exact ⟨p, hp, hin⟩
  · obtain ⟨n, hn, hrw⟩ := List.mem_map.mp hr
    have h2 := List.mem_filter.mp hn
    have hall := List.all_eq_true.mp h2.2 n h2.1
    exact absurd rfl (decide_eq_true_eq.mp hall)

/-- C9 (amended): for every snapshot whose rows are pairwise distinct on
the join key its self-diff uses — `(calendarDate, periodKey)` when the
snapshot carries a single date, `periodKey` alone when it spans several —
the self-diff joins every row to itself: each merged row has both sides
present and equal, a delta of zero and status `unchanged`. In particular
this covers the pipeline's normal two-date shape (periods 47-48 from the
previous UTC day plus 1-46, all distinct). And a candidate whose maximum
publish time equals the stored one (an identical snapshot) never replaces
the stored snapshot. -/
theorem C9_thm (S : List Row) (st : LoopState) (s : Nat)
    (hkey : S.Pairwise fun a b => effKey S S a ≠ effKey S S b) :
    (∀ row ∈ plot_diff_merged S S,
        delta row.prevVal row.newVal = some 0 ∧
          status row.prevVal row.newVal = Status.unchanged) ∧
      runCycleE false [] (fun _ => Except.ok (s, st.pub)) st =
        Except.ok ⟨st, 1, [], 0⟩ := by
  constructor
  · intro row hrow
    rw [plot_diff_merged_eq] at hrow
    obtain ⟨r, hr, hrw⟩ := outerMerge_self_rows _ S hkey row hrow
    rw [hrw]
    refine ⟨?_, ?_⟩
    · show delta (some r.value) (some r.value) = some 0
      simp [delta]
    · show status (some r.value) (some r.value) = Status.unchanged
      simp [status]
  · simp only [runCycleE]
    rw [if_neg (lt_irrefl st.pub)]
    rfl

/-- C9 counterexample: a snapshot spanning two calendar dates that share a
settlement period (exactly the shape the pipeline produces: periods 47-48
come from the previous UTC day). The self-diff then keys on the period
alone and cross-joins the two dates, producing rows with nonzero deltas
and status `changed` — not only `unchanged` with zero deltas. -/
theorem C9_counterexample :
    plot_diff_merged [⟨1, 5, 10⟩, ⟨2, 5, 20⟩] [⟨1, 5, 10⟩, ⟨2, 5, 20⟩] =
        [⟨(none, 5), some 10, some 10⟩, ⟨(none, 5), some 10, some 20⟩,
          ⟨(none, 5), some 20, some 10⟩, ⟨(none, 5), some 20, some 20⟩] ∧
      delta (some 10) (some 20) = some 10 ∧
      status (some 10) (some 20) = Status.changed := by decide

/-- Witness for C9 at a concrete snapshot of the pipeline's normal shape —
two calendar dates, distinct periods 47, 48 and 1 — and a concrete
identical-candidate cycle. -/
theorem C9_witness :
    (∀ row ∈ plot_diff_merged [⟨1, 47, 10⟩, ⟨1, 48, 20⟩, ⟨2, 1, 30⟩]
        [⟨1, 47, 10⟩, ⟨1, 48, 20⟩, ⟨2, 1, 30⟩],
        delta row.prevVal row.newVal = some 0 ∧
          status row.prevVal row.newVal = Status.unchanged) ∧
      runCycleE false [] (fun _ => Except.ok (9, (100 : Int))) ⟨4, 100⟩ =
        Except.ok ⟨⟨4, 100⟩, 1, [], 0⟩ :=
  C9_thm [⟨1, 47, 10⟩, ⟨1, 48, 20⟩, ⟨2, 1, 30⟩] ⟨4, 100⟩ 9 (by decide)

/-- C10: a present value equal to 0 always takes the `>= 0` branch: the
snapshot-plot sign label is `"Positive"`, the diff sign is
`some "Positive"` and the table row colour is the light green — never
negative and never null; a null diff sign or a background-coloured table
row arises exactly from an absent value. -/
theorem C10_thm :
    imbalance_sign (some 0) = "Positive" ∧
      diff_sign (some 0) = some "Positive" ∧
      row_color (some 0) = ft_green_light ∧
      (∀ x : Option Int, diff_sign x = none ↔ x = none) ∧
      ∀ x : Option Int, row_color x = plot_bg ↔ x = none := by
  refine ⟨rfl, rfl, rfl, fun x => ?_, fun x => ?_⟩
  · cases x with
    | none => simp [diff_sign]
    | some v =>
      simp only [diff_sign]
      constructor
      · intro h
        split at h <;> cases h
      · intro h
        cases h
  · cases x with
    | none => simp [row_color]
    | some v =>
      simp only [row_color]
      constructor
      · intro h
        split at h
        · exact absurd h (by decide)
        · exact absurd h (by decide)
      · intro h
        cases h

end EDV
